import Mathlib

/-!
Verification of the catnip worktree lifecycle and checkpoint engine.

Shallow embedding of the Go sources `claude_monitor.go` and the git
service file.  Strings manipulated character-wise are modelled as
`List Char`; external effects (git CLI, filesystem, session store) are
modelled as explicit state or as abstract boolean/option-valued
oracles passed in as parameters.
-/

namespace Catnip

/-- Go `unicode.IsSpace`: the White_Space code points trimmed by
`strings.TrimSpace`. -/
def isGoSpace (c : Char) : Bool :=
  c = '\t' || c = '\n' || c.toNat = 0x0B || c.toNat = 0x0C || c = '\r' || c = ' ' ||
  c.toNat = 0x85 || c.toNat = 0xA0 ||
  c.toNat = 0x1680 || (0x2000 ≤ c.toNat && c.toNat ≤ 0x200A) ||
  c.toNat = 0x2028 || c.toNat = 0x2029 || c.toNat = 0x202F || c.toNat = 0x205F ||
  c.toNat = 0x3000

/-- `strings.ReplaceAll(title, "✳", "")`: the pattern is a single code
point, so on valid UTF-8 the byte-level replacement is exactly the
character filter. -/
def removeSparkle (l : List Char) : List Char := l.filter (fun c => c != '✳')

/-- Left half of `strings.TrimSpace`. -/
def goTrimLeft (l : List Char) : List Char := l.dropWhile isGoSpace

/-- Right half of `strings.TrimSpace`. -/
def goTrimRight (l : List Char) : List Char := (l.reverse.dropWhile isGoSpace).reverse

/-- `strings.TrimSpace`: drop White_Space characters from both ends. -/
def goTrimSpace (l : List Char) : List Char := goTrimRight (goTrimLeft l)

/-- `strings.TrimPrefix(s, "*")`: remove one leading asterisk when present. -/
def dropStar : List Char → List Char
  | '*' :: rest => rest
  | l => l

/-- `cleanTitle` from claude_monitor.go:
`TrimSpace(ReplaceAll(title, "✳", ""))` then `TrimSpace(TrimPrefix(·, "*"))`. -/
def cleanTitle (l : List Char) : List Char :=
  goTrimSpace (dropStar (goTrimSpace (removeSparkle l)))

/- Support lemmas about dropWhile-based trimming. -/

theorem dropWhile_head_false (p : α → Bool) (l : List α) (c : α) (t : List α)
    (h : l.dropWhile p = c :: t) : p c = false := by
  have := List.head?_dropWhile_not p l
  rw [h] at this
  simpa using this

theorem dropWhile_eq_self_of_head (p : α → Bool) (l : List α)
    (h : ∀ c t, l = c :: t → p c = false) : l.dropWhile p = l := by
  cases l with
  | nil => rfl
  | cons c t =>
    have hc := h c t rfl
    simp [List.dropWhile_cons, hc]

theorem dropWhile_idem (p : α → Bool) (l : List α) :
    (l.dropWhile p).dropWhile p = l.dropWhile p := by
  apply dropWhile_eq_self_of_head
  intro c t h
  exact dropWhile_head_false p l c t h

theorem goTrimLeft_idem (l : List Char) : goTrimLeft (goTrimLeft l) = goTrimLeft l :=
  dropWhile_idem isGoSpace l

theorem goTrimRight_idem (l : List Char) :
    goTrimRight (goTrimRight l) = goTrimRight l := by
  unfold goTrimRight
  rw [List.reverse_reverse, dropWhile_idem]

/-- `goTrimRight l` together with the trimmed-off tail reassembles `l`. -/
theorem goTrimRight_append (l : List Char) :
    goTrimRight l ++ (l.reverse.takeWhile isGoSpace).reverse = l := by
  unfold goTrimRight
  rw [← List.reverse_append, List.takeWhile_append_dropWhile, List.reverse_reverse]

/-- A nonempty right-trim starts with the head of the original list. -/
theorem goTrimRight_head (l : List Char) (c : Char) (t : List Char)
    (h : goTrimRight l = c :: t) : ∃ t', l = c :: t' := by
  have happ := goTrimRight_append l
  rw [h] at happ
  exact ⟨t ++ (l.reverse.takeWhile isGoSpace).reverse, happ.symm⟩

theorem goTrimLeft_goTrimRight (l : List Char) (hl : goTrimLeft l = l) :
    goTrimLeft (goTrimRight l) = goTrimRight l := by
  apply dropWhile_eq_self_of_head
  intro c t h
  obtain ⟨t', ht'⟩ := goTrimRight_head l c t h
  have hd : l.dropWhile isGoSpace = c :: t' := by
    unfold goTrimLeft at hl
    exact hl.trans ht'
  exact dropWhile_head_false isGoSpace l c t' hd

theorem goTrimSpace_idem (l : List Char) :
    goTrimSpace (goTrimSpace l) = goTrimSpace l := by
  unfold goTrimSpace
  rw [goTrimLeft_goTrimRight (goTrimLeft l) (goTrimLeft_idem l), goTrimRight_idem]

/- Membership preservation through each cleaning stage. -/

theorem mem_of_mem_goTrimLeft {c : Char} {l : List Char}
    (h : c ∈ goTrimLeft l) : c ∈ l :=
  (List.dropWhile_sublist (p := isGoSpace) (l := l)).mem h

theorem mem_of_mem_goTrimRight {c : Char} {l : List Char}
    (h : c ∈ goTrimRight l) : c ∈ l := by
  unfold goTrimRight at h
  rw [List.mem_reverse] at h
  have := (List.dropWhile_sublist (p := isGoSpace) (l := l.reverse)).mem h
  rwa [List.mem_reverse] at this

theorem mem_of_mem_goTrimSpace {c : Char} {l : List Char}
    (h : c ∈ goTrimSpace l) : c ∈ l :=
  mem_of_mem_goTrimLeft (mem_of_mem_goTrimRight h)

theorem mem_of_mem_dropStar {c : Char} {l : List Char}
    (h : c ∈ dropStar l) : c ∈ l := by
  unfold dropStar at h
  split at h
  · exact List.mem_cons_of_mem _ h
  · exact h

theorem cleanTitle_no_sparkle (l : List Char) (c : Char)
    (h : c ∈ cleanTitle l) : (c != '✳') = true := by
  unfold cleanTitle at h
  have hm : c ∈ removeSparkle l :=
    mem_of_mem_goTrimSpace (mem_of_mem_dropStar (mem_of_mem_goTrimSpace h))
  unfold removeSparkle at hm
  simpa using List.of_mem_filter hm

theorem removeSparkle_cleanTitle (l : List Char) :
    removeSparkle (cleanTitle l) = cleanTitle l := by
  unfold removeSparkle
  rw [List.filter_eq_self]
  intro c hc
  exact cleanTitle_no_sparkle l c hc

theorem dropStar_of_head_ne (l : List Char) (h : l.head? ≠ some '*') :
    dropStar l = l := by
  cases l with
  | nil => rfl
  | cons c t =>
    unfold dropStar
    split
    · rename_i rest heq
      injection heq with h1 h2
      subst h1
      simp at h
    · rfl

/-- C4 counterexample: `cleanTitle` strips only one leading `*`, so on
`"**x"` a second application strips another one and the result changes. -/
theorem cleanTitle_not_idempotent :
    cleanTitle (cleanTitle ['*', '*', 'x']) ≠ cleanTitle ['*', '*', 'x'] := by
  decide

/-- C4 (amended): `cleanTitle` is idempotent on every title whose cleaned
form does not itself begin with `'*'`; a second application can only strip
one further leading asterisk. -/
theorem cleanTitle_idempotent_of_no_star (l : List Char)
    (h : (cleanTitle l).head? ≠ some '*') :
    cleanTitle (cleanTitle l) = cleanTitle l := by
  have hts : goTrimSpace (cleanTitle l) = cleanTitle l := by
    unfold cleanTitle
    exact goTrimSpace_idem _
  have h1 : cleanTitle (cleanTitle l) =
      goTrimSpace (dropStar (goTrimSpace (removeSparkle (cleanTitle l)))) := rfl
  rw [h1, removeSparkle_cleanTitle, hts, dropStar_of_head_ne _ h, hts]

/-- C4 witness: a concrete title on which the amended idempotence theorem
applies. -/
theorem cleanTitle_idempotent_witness :
    (cleanTitle (' ' :: '✳' :: ' ' :: 'h' :: 'i' :: [])).head? ≠ some '*' ∧
    cleanTitle (cleanTitle (' ' :: '✳' :: ' ' :: 'h' :: 'i' :: [])) =
      cleanTitle (' ' :: '✳' :: ' ' :: 'h' :: 'i' :: []) :=
  ⟨by decide, cleanTitle_idempotent_of_no_star _ (by decide)⟩

/-!
Cross-source title deduplication (`handleTitleChange`, claude_monitor.go
lines 232-278).  Times are naturals in milliseconds; the Go durations
5 s and 2 s become 5000 and 2000.  The `recentTitles` map is an
association list keyed by the Go key string `workDir ++ ":" ++ title`.
-/

/-- Entry of the `recentTitles` map: the Go `titleEvent` struct. -/
structure RecentEntry where
  title : String
  timestamp : Nat
  source : String
deriving DecidableEq

/-- Eviction sweep: delete each entry whose timestamp is strictly before
`now - 5 s` (written additively for naturals). -/
def evictOld (now : Nat) (m : List (String × RecentEntry)) :
    List (String × RecentEntry) :=
  m.filter (fun kv => !(kv.2.timestamp + 5000 < now))

/-- Map lookup on the association list. -/
def lookupRecent (m : List (String × RecentEntry)) (k : String) :
    Option RecentEntry :=
  (m.find? (fun kv => kv.1 == k)).map (fun kv => kv.2)

/-- Go map assignment `m[k] = v`: overwrite any previous binding. -/
def insertRecent (m : List (String × RecentEntry)) (k : String)
    (v : RecentEntry) : List (String × RecentEntry) :=
  (k, v) :: m.filter (fun kv => kv.1 != k)

/-- The dedup prefix of `handleTitleChange`: evict stale entries, consult
the map, decide whether to drop the event, and record it when it is
forwarded.  Returns the updated map and whether the event was forwarded
to the checkpoint manager. -/
def dedupStep (m : List (String × RecentEntry))
    (workDir title source : String) (now : Nat) :
    List (String × RecentEntry) × Bool :=
  let key := workDir ++ ":" ++ title
  let m1 := evictOld now m
  match lookupRecent m1 key with
  | some recent =>
    if source == "log" && recent.source == "log" then (m1, false)
    else if source == "pty" && now - recent.timestamp < 2000 then (m1, false)
    else (insertRecent m1 key ⟨title, now, source⟩, true)
  | none => (insertRecent m1 key ⟨title, now, source⟩, true)

/-- One event of a title-event trace. -/
structure TraceEvent where
  workDir : String
  title : String
  source : String
  time : Nat
deriving DecidableEq

/-- Run the dedup over a trace, counting forwarded events. -/
def runDedup : List (String × RecentEntry) → List TraceEvent →
    List (String × RecentEntry) × Nat
  | m, [] => (m, 0)
  | m, e :: rest =>
    let r := dedupStep m e.workDir e.title e.source e.time
    let rec' := runDedup r.1 rest
    (rec'.1, (if r.2 then 1 else 0) + rec'.2)

/-- C1 counterexample: a pty event followed one second later by a log
event with the same (path, title) key is forwarded twice, although the
claim demands exactly one forwarded event for a log/pty pair within two
seconds in either order. -/
theorem dedup_pty_then_log_both_forwarded :
    (runDedup []
      [⟨"/workspace/a", "T", "pty", 0⟩, ⟨"/workspace/a", "T", "log", 1000⟩]).2
      = 2 ∧ (1000 - 0 < 2000) := by
  decide

/-- C1 (amended): for two same-key events inside the 5-second eviction
window, exactly one is forwarded when both are `log`, or when the second
is `pty` arriving within 2 seconds of the first; in every other case
(`pty` first then `log`, or a `pty` second arriving 2 seconds or later)
both are forwarded. -/
theorem dedup_two_event_characterization
    (wd ti s1 s2 : String) (t1 t2 : Nat)
    (hle : t1 ≤ t2) (hwin : t2 ≤ t1 + 5000) :
    (runDedup [] [⟨wd, ti, s1, t1⟩, ⟨wd, ti, s2, t2⟩]).2 =
      if (s2 == "log" && s1 == "log") || (s2 == "pty" && t2 - t1 < 2000)
      then 1 else 2 := by
  have hkeep : (t1 + 5000 < t2) = False := by
    simp only [eq_iff_iff, iff_false]
    omega
  simp only [runDedup, dedupStep, evictOld, lookupRecent, insertRecent,
    List.filter_nil, List.find?_nil, Option.map_none', List.filter_cons,
    List.filter_nil, hkeep]
  simp only [decide_False, Bool.not_false, if_true, List.find?_cons,
    beq_self_eq_true, Option.map_some']
  by_cases h1 : (s2 == "log" && s1 == "log") = true
  · simp [h1]
  · by_cases h2 : (s2 == "pty" && t2 - t1 < 2000) = true
    · simp [h1, h2]
    · simp [h1, h2]

/-- C1 amended-theorem witness: a log event followed half a second later
by a pty event with the same key yields exactly one forwarded event. -/
theorem dedup_two_event_witness :
    (runDedup []
      [⟨"/workspace/a", "T", "log", 0⟩, ⟨"/workspace/a", "T", "pty", 500⟩]).2
      = 1 := by
  have h := dedup_two_event_characterization "/workspace/a" "T" "log" "pty" 0 500
    (by decide) (by decide)
  simpa using h

/-!
Branch-graduation collision resolution (`checkAndRenameBranch`,
claude_monitor.go lines 503-528, and the identical loop inside
`TriggerBranchRename`, lines 662-677).  `branchExists` delegates to the
git CLI, so it is abstracted as a boolean oracle `ex`.
-/

/-- Loop guard of both collision loops: the candidate is taken when it
exists as a bare name or under `refs/heads/`. -/
def collisionTaken (ex : String → Bool) (b : String) : Bool :=
  ex b || ex ("refs/heads/" ++ b)

/-- The collision loop body, with a structural fuel argument standing in
for the bounded `counter`; the fuel is kept equal to `101 - counter`, so
the zero case is unreachable from the entry point.  After assigning
`base-counter` the counter is incremented and the loop aborts as soon as
it exceeds 100 — before the freshly assigned name is ever tested. -/
def resolveCollisionAux (ex : String → Bool) (base : String) :
    Nat → String → Nat → Option String
  | 0, _, _ => none
  | fuel + 1, finalBranch, counter =>
    if collisionTaken ex finalBranch then
      let fb := base ++ "-" ++ toString counter
      let c := counter + 1
      if c > 100 then none
      else resolveCollisionAux ex base fuel fb c
    else some finalBranch

/-- Collision resolution as performed by `checkAndRenameBranch` and by
`TriggerBranchRename`: start from the suggested name with `counter = 1`;
`none` models the abort ("too many similar branches exist"). -/
def resolveCollision (ex : String → Bool) (base : String) : Option String :=
  resolveCollisionAux ex base 100 base 1

/-- The names the loop actually tests: the base name and the variants
`base-1` through `base-99`. -/
def collisionCandidates (base : String) : List String :=
  base :: (List.range 99).map (fun i => base ++ "-" ++ toString (i + 1))

theorem resolveCollisionAux_eq_find (ex : String → Bool) (base : String) :
    ∀ (fuel counter : Nat) (fb : String), counter + fuel = 101 → counter ≤ 100 →
    resolveCollisionAux ex base fuel fb counter =
      (fb :: (List.range (100 - counter)).map
        (fun i => base ++ "-" ++ toString (counter + i))).find?
        (fun b => !collisionTaken ex b) := by
  intro fuel
  induction fuel with
  | zero => intro counter fb hsum hle; omega
  | succ n ih =>
    intro counter fb hsum hle
    simp only [resolveCollisionAux]
    by_cases htaken : collisionTaken ex fb = true
    · have hskip : ∀ L : List String,
          (fb :: L).find? (fun b => !collisionTaken ex b) =
            L.find? (fun b => !collisionTaken ex b) := by
        intro L
        simp [List.find?_cons, htaken]
      simp only [htaken, if_true, hskip]
      by_cases hstop : counter + 1 > 100
      · have h100 : counter = 100 := by omega
        subst h100
        simp [hstop]
      · have hrec := ih (counter + 1) (base ++ "-" ++ toString counter)
          (by omega) (by omega)
        have hrange : 100 - counter = (100 - (counter + 1)) + 1 := by omega
        have hlist : (List.range (100 - counter)).map
              (fun i => base ++ "-" ++ toString (counter + i)) =
            (base ++ "-" ++ toString counter) ::
              (List.range (100 - (counter + 1))).map
                (fun i => base ++ "-" ++ toString (counter + 1 + i)) := by
          rw [hrange, List.range_succ_eq_map, List.map_cons, List.map_map]
          congr 1
          apply List.map_congr_left
          intro i _
          simp only [Function.comp_apply, Nat.succ_eq_add_one]
          have harith : counter + (i + 1) = counter + 1 + i := by omega
          rw [harith]
        simp only [hstop, if_false]
        rw [hrec, hlist]
    · simp [htaken, List.find?_cons]

/-- C3 (amended): the final branch name is the first of `base`, `base-1`,
…, `base-99` that is not taken (bare or under `refs/heads/`); when all
one hundred of those names are taken the loop aborts (`none`), without
ever testing `base-100`.  The same resolution function models both the
automatic graduation path and the manual `TriggerBranchRename` path,
whose loops are textually identical. -/
theorem resolveCollision_eq_first_free (ex : String → Bool) (base : String) :
    resolveCollision ex base =
      (collisionCandidates base).find? (fun b => !collisionTaken ex b) := by
  unfold resolveCollision collisionCandidates
  have h := resolveCollisionAux_eq_find ex base 100 1 base (by omega) (by omega)
  simpa using h

/-- Existence oracle for the C3 counterexample: every name consisting of
`b` or `b-⟨suffix⟩` other than `b-100` is taken. -/
def c3Oracle (s : String) : Bool :=
  (s.take 1 == "b") && (s != "b-100")

set_option maxRecDepth 8000 in
/-- C3 counterexample: with `b`, `b-1`, …, `b-99` all existing and
`b-100` free, graduation aborts even though the variant `b-100` does not
exist — so suffixes are not "tried up to -100" and the abort does not
require all variants through `-100` to exist. -/
theorem resolveCollision_aborts_before_100 :
    resolveCollision c3Oracle "b" = none ∧ collisionTaken c3Oracle "b-100" = false := by
  constructor
  · rfl
  · rfl

/-!
Branch-name validation (`isValidGitBranchName`, claude_monitor.go lines
563-593).  Go `len` is the UTF-8 byte length; `git check-ref-format` is
an external process, abstracted as a boolean oracle.  All the searched
patterns are ASCII, so byte-level `strings.Contains` coincides with
character-level containment.
-/

/-- UTF-8 encoded size of one code point. -/
def charUtf8Len (c : Char) : Nat :=
  if c.toNat < 0x80 then 1
  else if c.toNat < 0x800 then 2
  else if c.toNat < 0x10000 then 3
  else 4

/-- Go `len(s)`: the UTF-8 byte length of the string. -/
def goStrLen (s : List Char) : Nat := (s.map charUtf8Len).sum

/-- Boolean list-prefix test used to express `strings.Contains`. -/
def hasPre : List Char → List Char → Bool
  | [], _ => true
  | _ :: _, [] => false
  | a :: as, b :: bs => a == b && hasPre as bs

/-- `strings.Contains(s, pat)`: some suffix of `s` starts with `pat`. -/
def containsSub (s pat : List Char) : Bool :=
  hasPre pat s ||
    match s with
    | [] => false
    | _ :: t => containsSub t pat

/-- The substrings rejected by `isValidGitBranchName`. -/
def invalidPatterns : List (List Char) :=
  [['.', '.'], ['~'], ['^'], [':'], ['?'], ['*'], ['['], ['\\'], [' ']]

/-- `strings.HasSuffix` for a single character. -/
def endsWithChar (s : List Char) (c : Char) : Bool :=
  match s.getLast? with
  | some d => d == c
  | none => false

/-- `strings.HasPrefix` for a single character. -/
def startsWithChar (s : List Char) (c : Char) : Bool :=
  match s.head? with
  | some d => d == c
  | none => false

/-- `isValidGitBranchName` from claude_monitor.go: length bounds, then
`git check-ref-format refs/heads/<name>` (the oracle `refOk`), then the
rejected substrings, then the leading/trailing `/` and `.` checks. -/
def isValidGitBranchName (refOk : List Char → Bool) (name : List Char) : Bool :=
  if goStrLen name == 0 || goStrLen name > 100 then false
  else if !refOk name then false
  else if invalidPatterns.any (fun p => containsSub name p) then false
  else if startsWithChar name '/' || endsWithChar name '/' ||
      startsWithChar name '.' || endsWithChar name '.' then false
  else true

/-- C9: a suggested branch name is accepted exactly when its byte length
is between 1 and 100, `git check-ref-format` accepts it, it contains
none of the rejected substrings, and it neither starts nor ends with
`/` or `.`. -/
theorem isValidGitBranchName_iff (refOk : List Char → Bool) (name : List Char) :
    isValidGitBranchName refOk name = true ↔
      (1 ≤ goStrLen name ∧ goStrLen name ≤ 100 ∧ refOk name = true ∧
       (∀ p ∈ invalidPatterns, containsSub name p = false) ∧
       startsWithChar name '/' = false ∧ endsWithChar name '/' = false ∧
       startsWithChar name '.' = false ∧ endsWithChar name '.' = false) := by
  unfold isValidGitBranchName
  split
  · rename_i hlen
    simp only [Bool.or_eq_true, beq_iff_eq, decide_eq_true_eq] at hlen
    refine iff_of_false (by simp) ?_
    rintro ⟨h1, h2, -⟩
    omega
  · rename_i hlen
    split
    · rename_i href
      simp only [Bool.not_eq_true'] at href
      refine iff_of_false (by simp) ?_
      rintro ⟨-, -, h3, -⟩
      rw [h3] at href
      exact Bool.noConfusion href
    · rename_i href
      split
      · rename_i hpat
        simp only [List.any_eq_true] at hpat
        refine iff_of_false (by simp) ?_
        rintro ⟨-, -, -, h4, -⟩
        obtain ⟨p, hp, hc⟩ := hpat
        rw [h4 p hp] at hc
        exact Bool.noConfusion hc
      · rename_i hpat
        split
        · rename_i hedge
          simp only [Bool.or_eq_true] at hedge
          refine iff_of_false (by simp) ?_
          rintro ⟨-, -, -, -, h5, h6, h7, h8⟩
          rcases hedge with ((h | h) | h) | h
          · rw [h5] at h; exact Bool.noConfusion h
          · rw [h6] at h; exact Bool.noConfusion h
          · rw [h7] at h; exact Bool.noConfusion h
          · rw [h8] at h; exact Bool.noConfusion h
        · rename_i hedge
          refine iff_of_true rfl ?_
          simp only [Bool.or_eq_true, beq_iff_eq, decide_eq_true_eq, not_or] at hlen
          simp only [Bool.not_eq_true', Bool.not_eq_false] at href
          simp only [List.any_eq_true, not_exists, not_and] at hpat
          simp only [Bool.or_eq_true, not_or] at hedge
          refine ⟨by omega, by omega, href, ?_, ?_, ?_, ?_, ?_⟩
          · intro p hp
            cases hc : containsSub name p
            · rfl
            · exact absurd hc (hpat p hp)
          · cases h : startsWithChar name '/'
            · rfl
            · exact absurd h hedge.1.1.1
          · cases h : endsWithChar name '/'
            · rfl
            · exact absurd h hedge.1.1.2
          · cases h : startsWithChar name '.'
            · rfl
            · exact absurd h hedge.1.2
          · cases h : endsWithChar name '.'
            · rfl
            · exact absurd h hedge.2

/-!
Session-transcript path decoding (`getWorktreePathFromSessionFile`,
claude_monitor.go lines 779-793) against the encoding of transcript
project-directory names.
-/

/-- Modelled from the spec: the session-transcript directory name
encodes the absolute worktree path by replacing every `/` with `-`
(the encoder itself lives outside this repository; §6 of the spec:
"`encoded-worktree` starts with `-` and encodes the absolute worktree
path by replacing `/` with `-`"). -/
def encodeWorktreePath (p : List Char) : List Char :=
  p.map (fun c => if c = '/' then '-' else c)

/-- `getWorktreePathFromSessionFile`, applied to the project directory
name: if it starts with `-`, strip that first character and turn every
remaining `-` into `/`; otherwise return the empty string. -/
def getWorktreePathFromSessionFile (projectDirName : List Char) : List Char :=
  match projectDirName with
  | '-' :: rest => rest.map (fun c => if c = '-' then '/' else c)
  | _ => []

/-- C8: decoding the encoding of the absolute path `/workspace/catnip/coal`
yields `workspace/catnip/coal` — the leading slash is lost, because the
decoder consumes the first `-` (which encodes the leading `/`) instead of
mapping it back.  This contradicts the round-trip and the function's own
comment (`-workspace-catnip-coal -> /workspace/catnip/coal`). -/
theorem decode_encode_drops_leading_slash :
    getWorktreePathFromSessionFile
        (encodeWorktreePath ('/' :: "workspace/catnip/coal".toList)) =
      "workspace/catnip/coal".toList ∧
    "workspace/catnip/coal".toList ≠ '/' :: "workspace/catnip/coal".toList := by
  constructor
  · decide
  · decide

/-!
Worktree validity filter (`isWorktreeDirectory`, claude_monitor.go lines
217-229, and `getWorkspaceDir` from the git service file).  The
filesystem check `os.Stat(dir + "/.git")` is abstracted as the oracle
`hasGitEntry`; the environment is a total map from variable names to
values, with `""` meaning unset, exactly as `os.Getenv` reports it.
-/

/-- `getWorkspaceDir` from the git service file: `CATNIP_WORKSPACE_DIR`
when non-empty, else the default `/workspace`. -/
def getWorkspaceDir (env : String → String) : String :=
  if env "CATNIP_WORKSPACE_DIR" ≠ "" then env "CATNIP_WORKSPACE_DIR"
  else "/workspace"

/-- `strings.HasPrefix(s, pre)` on whole strings; both sides here are
ASCII-prefixed paths, so byte-level and character-level agree. -/
def goHasPrefixStr (s pre : String) : Bool := hasPre pre.data s.data

/-- `isWorktreeDirectory` as implemented: the prefix check is against the
string literal `"/workspace/"`; the environment is not consulted. -/
def isWorktreeDirectory (hasGitEntry : String → Bool) (dir : String) : Bool :=
  goHasPrefixStr dir "/workspace/" && hasGitEntry dir

/-- Modelled from the spec: the worktree-validity filter as the spec
states it — the cwd must lie under the configured workspace root
(`CATNIP_WORKSPACE_DIR` override honoured) and contain a `.git` entry. -/
def isWorktreeDirectorySpec (env : String → String)
    (hasGitEntry : String → Bool) (dir : String) : Bool :=
  goHasPrefixStr dir (getWorkspaceDir env ++ "/") && hasGitEntry dir

/-- The gate applied to every title event before it reaches
`handleTitleChange`, in `readTitlesLog` and in `NotifyTitleChange`:
worktree-valid cwd and a non-empty cleaned title. -/
def titleEventProcessed (hasGitEntry : String → Bool)
    (cwd : String) (title : List Char) : Bool :=
  isWorktreeDirectory hasGitEntry cwd && !(cleanTitle title).isEmpty

/-- C6 counterexample: with `CATNIP_WORKSPACE_DIR=/custom`, a directory
`/custom/proj` containing a `.git` entry is worktree-valid per the spec
but rejected by the code, whose prefix test hard-codes `/workspace/`. -/
theorem isWorktreeDirectory_ignores_env :
    isWorktreeDirectory (fun _ => true) "/custom/proj" = false ∧
    isWorktreeDirectorySpec
      (fun v => if v = "CATNIP_WORKSPACE_DIR" then "/custom" else "")
      (fun _ => true) "/custom/proj" = true := by
  constructor
  · decide
  · decide

/-- C6 (amended): a title event is processed exactly when its cwd starts
with the literal prefix `/workspace/`, the cwd contains a `.git` entry,
and the cleaned title is non-empty; the `CATNIP_WORKSPACE_DIR` override
plays no part in this filter. -/
theorem titleEventProcessed_iff (hasGitEntry : String → Bool)
    (cwd : String) (title : List Char) :
    titleEventProcessed hasGitEntry cwd title = true ↔
      (goHasPrefixStr cwd "/workspace/" = true ∧ hasGitEntry cwd = true ∧
       cleanTitle title ≠ []) := by
  unfold titleEventProcessed isWorktreeDirectory
  simp [List.isEmpty_iff, and_assoc]

/-!
Commit-previous-work and manager stop (`GitAddCommitGetHash` in the git
service file, lines 1590-1620; `commitPreviousWork` and
`WorktreeCheckpointManager.Stop` in claude_monitor.go, lines 370-410).
The git repository is modelled by its observable state: whether the
directory is a repository, whether the working tree and the index hold
changes, and the commit list (most recent first).  A commit records its
message and whether `-n` (bypass commit hooks) was passed; the HEAD
hash is derived from the commit list and is never empty once a commit
exists.
-/

/-- One commit; `noVerify` records that `git commit` ran with `-n`. -/
structure GitCommit where
  message : String
  noVerify : Bool
deriving DecidableEq

/-- Observable git state of one worktree directory. -/
structure GitState where
  isRepo : Bool
  /-- unstaged modifications in the working tree -/
  unstaged : Bool
  /-- staged modifications in the index -/
  staged : Bool
  commits : List GitCommit
deriving DecidableEq

/-- `git rev-parse HEAD`: a non-empty hash derived from the commit list. -/
def headHash (g : GitState) : String :=
  match g.commits with
  | [] => ""
  | _ => "h" ++ toString g.commits.length

/-- `GitAddCommitGetHash`: bail out with an empty hash when the directory
is not a git repository; `git add .` stages everything; when
`git diff --cached --quiet` exits cleanly (nothing staged) return the
empty hash with no error; otherwise `git commit -m <message> -n` and
return the new HEAD hash. -/
def GitAddCommitGetHash (g : GitState) (message : String) :
    GitState × Except String String :=
  if !g.isRepo then (g, .ok "")
  else
    let g1 : GitState :=
      { g with staged := g.staged || g.unstaged, unstaged := false }
    if !g1.staged then (g1, .ok "")
    else
      let g2 : GitState :=
        { g1 with commits := ⟨message, true⟩ :: g1.commits, staged := false }
      (g2, .ok (headHash g2))

/-- State visible to `commitPreviousWork` beyond git itself: the hash
recorded against the previous session entry (Session Store) and the
Registry's refreshed commit count. -/
structure MonitorState where
  git : GitState
  previousEntryHash : Option String
  registryCommitCount : Nat
deriving DecidableEq

/-- `commitPreviousWork`: run `GitAddCommitGetHash` with the given title;
on error or an empty hash do nothing further; otherwise write the hash
into the previous session entry and refresh the worktree status so the
Registry sees the new commit count. -/
def commitPreviousWork (st : MonitorState) (title : String) : MonitorState :=
  let r := GitAddCommitGetHash st.git title
  match r.2 with
  | .error _ => { st with git := r.1 }
  | .ok h =>
    if h = "" then { st with git := r.1 }
    else
      { st with
        git := r.1
        previousEntryHash := some h
        registryCommitCount := r.1.commits.length }

/-- Per-worktree checkpoint manager state relevant to `Stop`. -/
structure ManagerState where
  currentTitle : String
  timerActive : Bool
  monitor : MonitorState
deriving DecidableEq

/-- `WorktreeCheckpointManager.Stop`: cancel any pending checkpoint
timer, then commit pending work under the current title when one is
set. -/
def managerStop (st : ManagerState) : ManagerState :=
  if st.currentTitle ≠ "" then
    { st with
      timerActive := false
      monitor := commitPreviousWork st.monitor st.currentTitle }
  else { st with timerActive := false }

/-- C7: committing previous work stages everything and commits with
hooks bypassed.  Outside a git repository, or when nothing is staged
after `git add .`, it returns an empty hash with no error and leaves the
Session Store and Registry untouched; otherwise it returns the new HEAD
hash, the new commit carries the given message with `-n` set, and that
hash is written into the previous session entry. -/
theorem commitPreviousWork_spec (st : MonitorState) (title : String) :
    (st.git.isRepo = false →
      GitAddCommitGetHash st.git title = (st.git, .ok "") ∧
      commitPreviousWork st title = st) ∧
    (st.git.isRepo = true → (st.git.staged || st.git.unstaged) = false →
      (GitAddCommitGetHash st.git title).2 = .ok "" ∧
      (commitPreviousWork st title).git.commits = st.git.commits ∧
      (commitPreviousWork st title).previousEntryHash = st.previousEntryHash ∧
      (commitPreviousWork st title).registryCommitCount =
        st.registryCommitCount) ∧
    (st.git.isRepo = true → (st.git.staged || st.git.unstaged) = true →
      (GitAddCommitGetHash st.git title).2 =
        .ok (headHash (GitAddCommitGetHash st.git title).1) ∧
      headHash (GitAddCommitGetHash st.git title).1 ≠ "" ∧
      (GitAddCommitGetHash st.git title).1.commits =
        ⟨title, true⟩ :: st.git.commits ∧
      (commitPreviousWork st title).previousEntryHash =
        some (headHash (GitAddCommitGetHash st.git title).1)) := by
  refine ⟨?_, ?_, ?_⟩
  · intro hrepo
    unfold commitPreviousWork GitAddCommitGetHash
    simp [hrepo]
  · intro hrepo hclean
    simp only [Bool.or_eq_false_iff] at hclean
    unfold commitPreviousWork GitAddCommitGetHash
    simp [hrepo, hclean.1, hclean.2]
  · intro hrepo hdirty
    have hstaged : (st.git.staged || st.git.unstaged) = true := hdirty
    unfold commitPreviousWork GitAddCommitGetHash
    simp only [hrepo, Bool.not_true, Bool.false_eq_true, if_false, hstaged,
      Bool.not_false, if_true]
    unfold headHash
    simp only [List.length_cons]
    have hne : ("h" ++ toString (st.git.commits.length + 1)) ≠ "" := by
      intro hemp
      have h2 := congrArg String.data hemp
      simp [String.data_append] at h2
    simp [hne]

/-- C7 witness: a dirty repository state on which `commitPreviousWork`
produces the commit and records its hash, and a clean one on which it is
a no-op. -/
theorem commitPreviousWork_witness :
    (GitAddCommitGetHash ⟨true, true, false, []⟩ "T").1.commits =
      [⟨"T", true⟩] ∧
    (commitPreviousWork ⟨⟨true, false, false, []⟩, none, 0⟩ "T").git.commits =
      ([] : List GitCommit) :=
  ⟨((commitPreviousWork_spec ⟨⟨true, true, false, []⟩, none, 0⟩ "T").2.2
      rfl rfl).2.2.1,
   ((commitPreviousWork_spec ⟨⟨true, false, false, []⟩, none, 0⟩ "T").2.1
      rfl rfl).2.1⟩

/- Helper lemmas on `commitPreviousWork`, shared by the Stop analysis. -/

theorem commitPreviousWork_commits_dirty (st : MonitorState) (title : String)
    (hrepo : st.git.isRepo = true)
    (hdirty : (st.git.staged || st.git.unstaged) = true) :
    (commitPreviousWork st title).git.commits =
      ⟨title, true⟩ :: st.git.commits := by
  unfold commitPreviousWork GitAddCommitGetHash
  simp only [hrepo, Bool.not_true, Bool.false_eq_true, if_false, hdirty,
    Bool.not_false, if_true]
  split <;> simp

theorem commitPreviousWork_commits_clean (st : MonitorState) (title : String)
    (hclean : (st.git.staged || st.git.unstaged) = false) :
    (commitPreviousWork st title).git.commits = st.git.commits := by
  simp only [Bool.or_eq_false_iff] at hclean
  unfold commitPreviousWork GitAddCommitGetHash
  by_cases hrepo : st.git.isRepo = true
  · simp [hrepo, hclean.1, hclean.2]
  · simp only [Bool.not_eq_true] at hrepo
    simp [hrepo]

/-- C2: stopping a checkpoint manager cancels the pending debounce timer,
and — when a current title exists and the working tree of the git
repository is dirty — creates exactly one final commit whose message is
the current title; with no current title or a clean tree, stopping
creates no commit. -/
theorem managerStop_spec (st : ManagerState)
    (hrepo : st.monitor.git.isRepo = true) :
    (managerStop st).timerActive = false ∧
    (st.currentTitle ≠ "" →
      (st.monitor.git.staged || st.monitor.git.unstaged) = true →
      (managerStop st).monitor.git.commits =
        ⟨st.currentTitle, true⟩ :: st.monitor.git.commits) ∧
    ((st.currentTitle = "" ∨
        (st.monitor.git.staged || st.monitor.git.unstaged) = false) →
      (managerStop st).monitor.git.commits = st.monitor.git.commits) := by
  refine ⟨?_, ?_, ?_⟩
  · unfold managerStop
    split <;> rfl
  · intro htitle hdirty
    unfold managerStop
    split
    · exact commitPreviousWork_commits_dirty st.monitor st.currentTitle hrepo hdirty
    · rename_i hcond
      simp only [ne_eq, not_not] at hcond
      exact absurd hcond htitle
  · intro hcase
    unfold managerStop
    split
    · rename_i hcond
      rcases hcase with hempty | hclean
      · exact absurd hempty hcond
      · exact commitPreviousWork_commits_clean st.monitor st.currentTitle hclean
    · rfl

/-- C2 witness: a manager with current title `"T"`, an active timer and a
dirty tree commits exactly once with message `"T"` on stop; one with an
empty title does not commit. -/
theorem managerStop_witness :
    (managerStop ⟨"T", true, ⟨⟨true, true, false, []⟩, none, 0⟩⟩).timerActive
        = false ∧
    (managerStop ⟨"T", true, ⟨⟨true, true, false, []⟩, none, 0⟩⟩).monitor.git.commits
        = [⟨"T", true⟩] ∧
    (managerStop ⟨"", true, ⟨⟨true, true, false, []⟩, none, 0⟩⟩).monitor.git.commits
        = ([] : List GitCommit) :=
  ⟨(managerStop_spec ⟨"T", true, ⟨⟨true, true, false, []⟩, none, 0⟩⟩ rfl).1,
   (managerStop_spec ⟨"T", true, ⟨⟨true, true, false, []⟩, none, 0⟩⟩ rfl).2.1
      (by decide) rfl,
   (managerStop_spec ⟨"", true, ⟨⟨true, true, false, []⟩, none, 0⟩⟩ rfl).2.2
      (Or.inl rfl)⟩

/-!
At most one checkpoint manager per worktree path (`handleTitleChange`,
claude_monitor.go lines 267-278).  The `checkpointManagers` map is an
association list from worktree path to a manager identity; the fresh
counter stands for `createCheckpointManager` allocations.  The lookup
and insertion happen atomically under `managersMutex`, so any
interleaving of concurrently processed events is some serialization,
i.e. some ordering of the event list; quantifying over all event lists
covers all interleavings.
-/

/-- Lookup in the managers map. -/
def lookupManager (ms : List (String × Nat)) (p : String) : Option Nat :=
  (ms.find? (fun kv => kv.1 == p)).map (fun kv => kv.2)

/-- The mutex-protected body of `handleTitleChange`: reuse the existing
manager when one exists, otherwise create a fresh one. -/
def managersStep (acc : List (String × Nat) × Nat) (path : String) :
    List (String × Nat) × Nat :=
  match lookupManager acc.1 path with
  | some _ => acc
  | none => ((path, acc.2) :: acc.1, acc.2 + 1)

/-- The managers map after a sequence of forwarded title events. -/
def managersAfter (events : List String) : List (String × Nat) :=
  (events.foldl managersStep ([], 0)).1

theorem lookupManager_none_iff (ms : List (String × Nat)) (p : String) :
    lookupManager ms p = none ↔ p ∉ ms.map Prod.fst := by
  unfold lookupManager
  rw [Option.map_eq_none', List.find?_eq_none]
  constructor
  · intro h hp
    obtain ⟨⟨q, n⟩, hmem, hq⟩ := List.mem_map.mp hp
    exact absurd (by simpa [hq] : ((q, n).1 == p) = true) (by simpa using h _ hmem)
  · intro h kv hkv
    simp only [beq_eq_false_iff_ne, ne_eq, Bool.not_eq_true]
    intro hkvp
    exact h (List.mem_map.mpr ⟨kv, hkv, hkvp⟩)

theorem managersStep_keys (acc : List (String × Nat) × Nat) (e : String)
    (p : String) :
    p ∈ (managersStep acc e).1.map Prod.fst ↔
      (p ∈ acc.1.map Prod.fst ∨ p = e) := by
  unfold managersStep
  cases hl : lookupManager acc.1 e with
  | none => simp [or_comm]
  | some n =>
    constructor
    · exact Or.inl
    · rintro (h | rfl)
      · exact h
      · by_contra hp
        rw [(lookupManager_none_iff acc.1 p).mpr hp] at hl
        exact Option.noConfusion hl

theorem managersStep_nodup (acc : List (String × Nat) × Nat) (e : String)
    (hnd : (acc.1.map Prod.fst).Nodup) :
    ((managersStep acc e).1.map Prod.fst).Nodup := by
  unfold managersStep
  cases hl : lookupManager acc.1 e with
  | none =>
    simp only [List.map_cons]
    exact List.nodup_cons.mpr ⟨(lookupManager_none_iff acc.1 e).mp hl, hnd⟩
  | some n => exact hnd

theorem managersFold_invariant (events : List String) :
    ∀ acc : List (String × Nat) × Nat, (acc.1.map Prod.fst).Nodup →
    ((events.foldl managersStep acc).1.map Prod.fst).Nodup ∧
    ∀ p, p ∈ (events.foldl managersStep acc).1.map Prod.fst ↔
      (p ∈ acc.1.map Prod.fst ∨ p ∈ events) := by
  induction events with
  | nil => intro acc hnd; simpa using hnd
  | cons e rest ih =>
    intro acc hnd
    rw [List.foldl_cons]
    obtain ⟨ihnd, ihmem⟩ := ih (managersStep acc e) (managersStep_nodup acc e hnd)
    refine ⟨ihnd, fun p => ?_⟩
    rw [ihmem p, managersStep_keys acc e p, List.mem_cons]
    tauto

/-- C5: for every sequence of title events — every serialization of
events processed concurrently, since the lookup-or-create runs under the
managers mutex — the managers map holds at most one manager per worktree
path (its key list has no duplicates), and a path has a manager exactly
when some event for it has been processed: the manager is created lazily
on the first event for an unseen path. -/
theorem managers_at_most_one_per_path (events : List String) :
    ((managersAfter events).map Prod.fst).Nodup ∧
    ∀ p, p ∈ (managersAfter events).map Prod.fst ↔ p ∈ events := by
  obtain ⟨hnd, hmem⟩ := managersFold_invariant events ([], 0) (by simp)
  exact ⟨hnd, fun p => by simpa using hmem p⟩

/-!
Startup branch cleanup (`cleanupUnusedBranches`, git service file lines
52-144).  One repository's pass is modelled; the git CLI calls and the
`IsCatnipBranch` predicate (which lives in the external git package) are
abstract oracles over character-list branch names.
-/

/-- `strings.TrimPrefix(l, pat)` for an arbitrary pattern. -/
def dropPre (pat l : List Char) : List Char :=
  if hasPre pat l then l.drop pat.length else l

/-- The branch-name cleanup applied to each `git branch` output line:
`TrimSpace`, `TrimPrefix "*"`, `TrimPrefix "+"`, `TrimSpace`,
`TrimPrefix "remotes/origin/"`. -/
def cleanBranchName (b : List Char) : List Char :=
  dropPre "remotes/origin/".data
    (goTrimSpace (dropPre ['+'] (dropPre ['*'] (goTrimSpace b))))

/-- External git facts consulted by one repository's cleanup pass. -/
structure CleanupEnv where
  /-- `git.IsCatnipBranch` (external scratch-branch predicate) -/
  isCatnip : List Char → Bool
  /-- `ShowRef` with `Verify` succeeds for the ref -/
  showRefOk : List Char → Bool
  /-- `BranchExists(repo, name, false)` -/
  branchExistsLocal : List Char → Bool
  /-- `GetCommitCount(repo, base, branch)`; `none` is an error -/
  commitCount : List Char → List Char → Option Nat
  /-- branches checked out by the listed worktrees; `none` means
  `ListWorktrees` failed -/
  worktreesBranches : Option (List (List Char))
  /-- `DeleteBranch` succeeds -/
  deleteOk : List Char → Bool

/-- Base-ref discovery: try `main`, then `master`. -/
def baseRefFor (env : CleanupEnv) : Option (List Char) :=
  if env.showRefOk "main".data then some "main".data
  else if env.showRefOk "master".data then some "master".data
  else none

/-- The per-branch body of the cleanup loop: `true` exactly when every
`continue` guard is passed and the deletion succeeds. -/
def branchDeleted (env : CleanupEnv) (raw : List Char) : Bool :=
  if !env.isCatnip (cleanBranchName raw) then false
  else
    match baseRefFor env with
    | none => false
    | some base =>
      if !env.branchExistsLocal (cleanBranchName raw) then false
      else
        match env.commitCount base (cleanBranchName raw) with
        | none => false
        | some k =>
          if k > 0 then false
          else
            match env.worktreesBranches with
            | some wts =>
              if wts.any (fun w => w == cleanBranchName raw) then false
              else env.deleteOk (cleanBranchName raw)
            | none => env.deleteOk (cleanBranchName raw)

/-- The cleaned names of the branches the pass deletes, in order. -/
def cleanupDeletedBranches (env : CleanupEnv) : List (List Char) → List (List Char)
  | [] => []
  | b :: rest =>
    if branchDeleted env b then
      cleanBranchName b :: cleanupDeletedBranches env rest
    else cleanupDeletedBranches env rest

theorem branchDeleted_conditions (env : CleanupEnv) (raw : List Char)
    (h : branchDeleted env raw = true) :
    env.isCatnip (cleanBranchName raw) = true ∧
    (∃ base, baseRefFor env = some base ∧
      env.commitCount base (cleanBranchName raw) = some 0) ∧
    env.branchExistsLocal (cleanBranchName raw) = true ∧
    (∀ wts, env.worktreesBranches = some wts → cleanBranchName raw ∉ wts) := by
  unfold branchDeleted at h
  split at h
  · exact Bool.noConfusion h
  · rename_i hcat
    simp only [Bool.not_eq_true', Bool.not_eq_false] at hcat
    split at h
    · exact Bool.noConfusion h
    · rename_i base hbase
      split at h
      · exact Bool.noConfusion h
      · rename_i hexists
        simp only [Bool.not_eq_true', Bool.not_eq_false] at hexists
        split at h
        · exact Bool.noConfusion h
        · rename_i k hcount
          split at h
          · exact Bool.noConfusion h
          · rename_i hkpos
            simp only [gt_iff_lt, not_lt, Nat.le_zero] at hkpos
            subst hkpos
            refine ⟨hcat, ⟨base, hbase, hcount⟩, hexists, ?_⟩
            split at h
            · rename_i wts hwts
              split at h
              · exact Bool.noConfusion h
              · rename_i hany
                intro wts' hwts'
                rw [hwts] at hwts'
                injection hwts' with he
                subst he
                intro hmem
                exact hany (List.any_eq_true.mpr ⟨_, hmem, by simp⟩)
            · rename_i hwts
              intro wts' hwts'
              rw [hwts'] at hwts
              exact Option.noConfusion hwts

/-- C10: the startup cleanup deletes a branch only when its cleaned name
satisfies the external catnip scratch-branch predicate, a base branch
(`main` or `master`) was found, the branch exists locally with zero
commits ahead of that base, and it is the checked-out branch of no
listed worktree. -/
theorem cleanupDeletedBranches_safe (env : CleanupEnv)
    (branches : List (List Char)) (bn : List Char)
    (h : bn ∈ cleanupDeletedBranches env branches) :
    env.isCatnip bn = true ∧
    (∃ base, baseRefFor env = some base ∧ env.commitCount base bn = some 0) ∧
    env.branchExistsLocal bn = true ∧
    (∀ wts, env.worktreesBranches = some wts → bn ∉ wts) := by
  induction branches with
  | nil => exact absurd h (List.not_mem_nil bn)
  | cons b rest ih =>
    unfold cleanupDeletedBranches at h
    split at h
    · rename_i hdel
      rcases List.mem_cons.mp h with heq | hrest
      · subst heq
        exact branchDeleted_conditions env b hdel
      · exact ih hrest
    · exact ih h

/-- Concrete cleanup environment for the C10 witness: a single scratch
branch with zero commits ahead of `main`, checked out nowhere. -/
def c10Env : CleanupEnv where
  isCatnip := fun l => hasPre "catnip/".data l
  showRefOk := fun _ => true
  branchExistsLocal := fun _ => true
  commitCount := fun _ _ => some 0
  worktreesBranches := some []
  deleteOk := fun _ => true

/-- C10 witness: in `c10Env` the branch `catnip/x` is deleted, and the
safety theorem yields all four conditions for it. -/
theorem cleanupDeletedBranches_safe_witness :
    c10Env.isCatnip "catnip/x".data = true ∧
    (∃ base, baseRefFor c10Env = some base ∧
      c10Env.commitCount base "catnip/x".data = some 0) ∧
    c10Env.branchExistsLocal "catnip/x".data = true ∧
    (∀ wts, c10Env.worktreesBranches = some wts → "catnip/x".data ∉ wts) :=
  cleanupDeletedBranches_safe c10Env ["catnip/x".data] "catnip/x".data
    (by decide)

end Catnip
